import Mathlib

/-
  Verification of the RAVAA conversational backend (src/app.py) against its
  natural-language specification.

  Texts are modelled as `List Char` (a Python `str`).  Python's numeric tower
  on the values this program computes (integer score increments, one -0.5
  penalty, averages of such scores, difflib similarity ratios) is modelled by
  exact rationals `ℚ`.  Python's `str.lower` is ASCII lowering on the
  characters this program matches against, which is `Char.toLower` from core
  applied characterwise.
-/

set_option allowUnsafeReducibility true in
attribute [semireducible] Rat.add Rat.mul Rat.inv Rat.div Rat.sub Rat.neg Rat.normalize Rat.blt

/-- Python `str.lower()` applied to a text, characterwise ASCII lowering. -/
def pyLower (s : List Char) : List Char := s.map Char.toLower

/-- Python's substring test `needle in hay` (for `str`): some contiguous slice
of `hay` equals `needle`; the empty needle is contained in everything. -/
def strIn (needle : List Char) : List Char → Bool
  | [] => needle.isEmpty
  | c :: rest => needle.isPrefixOf (c :: rest) || strIn needle rest

/-- Python whitespace for `str.split()` with no argument (the ASCII part:
space, tab, newline, carriage return, vertical tab, form feed). -/
def isPySpace (c : Char) : Bool :=
  c = ' ' || c = '\t' || c = '\n' || c = '\r' || c = '\x0b' || c = '\x0c'

/-- Helper for `tokenCount`: number of maximal non-whitespace runs, given
whether the previous character belonged to a run. -/
def tokenCountGo : List Char → Bool → ℕ
  | [], _ => 0
  | c :: rest, inWord =>
    if isPySpace c then tokenCountGo rest false
    else (if inWord then 0 else 1) + tokenCountGo rest true

/-- `len(text.split())` in Python: the number of whitespace-separated tokens. -/
def tokenCount (t : List Char) : ℕ := tokenCountGo t false

/-- The fixed hedge-phrase list `hedge_words` of src/app.py lines 31-40,
copied verbatim (including the curly apostrophes, `".."` and `"*"`). -/
def hedge_words : List (List Char) :=
  ["maybe".data, "perhaps".data, "possibly".data, "could be".data, "might be".data,
   "i guess".data, "i suppose".data, "i think".data,
   "i’m not sure".data, "not really".data, "kind of".data, "sort of".data,
   "more or less".data, "i’d say".data,
   "it seems like".data, "as far as i remember".data, "i believe".data,
   "to some extent".data, "you could say that".data,
   "depends".data, "that’s hard to say".data, "let’s just say".data,
   "i wouldn’t say that exactly".data,
   "not exactly".data, "not technically".data, "in a way".data,
   "something like that".data, "i don’t know".data,
   "i mean".data, "i guess you could say".data, "just".data, "only".data,
   "barely".data, "hardly".data, "a little".data,
   "not that much".data, "nothing major".data, "no big deal".data,
   "wasn’t serious".data, "sorta".data, "kinda".data,
   "a tiny bit".data, "at some point".data, "a while back".data, "recently".data,
   "i think it was yesterday".data,
   "not sure when".data, "back then".data, "sometime".data, "earlier maybe".data,
   "can’t remember exactly".data, "..".data,
   "wasn't".data, "*".data]

/-- The fixed contradiction pair list `contradiction_phrases` of src/app.py
line 41. -/
def contradiction_phrases : List (List Char × List Char) :=
  [("yes".data, "no".data), ("never".data, "sometimes".data),
   ("always".data, "not always".data)]

/-- The fixed avoidance-phrase list inlined at src/app.py line 61. -/
def avoidance_phrases : List (List Char) :=
  ["idk".data, "don't wanna say".data, "prefer not to answer".data]

/-- `analyze_message` of src/app.py lines 43-67: lowercases the message and
accumulates the five scoring signals sequentially, exactly as the code does. -/
def analyze_message (msg : List Char) : ℚ :=
  let text := pyLower msg
  let score : ℚ := 0
  let score := if hedge_words.any (fun hw => strIn hw text) then score + 2 else score
  let score := if tokenCount text < 4 then score + 1 else score
  let score := contradiction_phrases.foldl
    (fun s p => if strIn p.1 text && strIn p.2 text then s + 2 else s) score
  let score := if avoidance_phrases.any (fun p => strIn p text) then score + 3 else score
  let score := if strIn "?".data text then score - 1/2 else score
  score

/-- Signal 1 of the spec: +2 when any hedge phrase occurs in the (lowered)
text, regardless of how many match. -/
def hedgeSignal (text : List Char) : ℚ :=
  if hedge_words.any (fun hw => strIn hw text) then 2 else 0

/-- Signal 2 of the spec: +1 when the text has fewer than 4
whitespace-separated tokens. -/
def shortSignal (text : List Char) : ℚ :=
  if tokenCount text < 4 then 1 else 0

/-- Signal 3 of the spec: +2 for each contradiction pair both of whose phrases
occur in the text. -/
def contradictionSignal (text : List Char) : ℚ :=
  2 * ((contradiction_phrases.filter
    (fun p => strIn p.1 text && strIn p.2 text)).length : ℚ)

/-- Signal 4 of the spec: +3 when any avoidance phrase occurs in the text. -/
def avoidanceSignal (text : List Char) : ℚ :=
  if avoidance_phrases.any (fun p => strIn p text) then 3 else 0

/-- Signal 5 of the spec: -0.5 when the text contains a question mark. -/
def questionSignal (text : List Char) : ℚ :=
  if strIn "?".data text then -(1/2) else 0

/-- The contradiction loop of `analyze_message` adds twice the number of fully
present contradiction pairs to whatever score it starts from. -/
lemma contradiction_foldl_eq (t : List Char) (a : ℚ) :
    contradiction_phrases.foldl
      (fun s p => if strIn p.1 t && strIn p.2 t then s + 2 else s) a
      = a + contradictionSignal t := by
  unfold contradictionSignal contradiction_phrases
  simp only [List.foldl_cons, List.foldl_nil, List.filter_cons, List.filter_nil]
  rcases Bool.eq_false_or_eq_true (strIn "yes".data t && strIn "no".data t) with h1 | h1 <;>
  rcases Bool.eq_false_or_eq_true
    (strIn "never".data t && strIn "sometimes".data t) with h2 | h2 <;>
  rcases Bool.eq_false_or_eq_true
    (strIn "always".data t && strIn "not always".data t) with h3 | h3 <;>
  simp only [h1, h2, h3, if_true, if_false, List.length_cons, List.length_nil,
    Bool.false_eq_true, ite_false, ite_true] <;> push_cast <;> ring

/-- Decomposition of `analyze_message` into the five independent signals. -/
lemma analyze_message_signal_decomp (msg : List Char) :
    analyze_message msg =
      hedgeSignal (pyLower msg) + shortSignal (pyLower msg) +
      contradictionSignal (pyLower msg) + avoidanceSignal (pyLower msg) +
      questionSignal (pyLower msg) := by
  simp only [analyze_message]
  rw [contradiction_foldl_eq]
  unfold hedgeSignal shortSignal avoidanceSignal questionSignal
  by_cases h1 : hedge_words.any (fun hw => strIn hw (pyLower msg)) <;>
  by_cases h2 : tokenCount (pyLower msg) < 4 <;>
  by_cases h3 : avoidance_phrases.any (fun p => strIn p (pyLower msg)) <;>
  by_cases h4 : strIn "?".data (pyLower msg) <;>
  simp only [h1, h2, h3, h4, if_true, if_false, ite_true, ite_false,
    Bool.false_eq_true] <;> ring

/-- Claim C1: for every message text, `analyze_message` lowercases the text
and returns the additive sum of exactly the five signals: +2 for any hedge
phrase, +1 for fewer than 4 whitespace-separated tokens, +2 per contradiction
pair with both phrases present, +3 for any avoidance phrase, and -0.5 for a
question mark. -/
theorem analyze_message_is_signal_sum (msg : List Char) :
    analyze_message msg =
      hedgeSignal (pyLower msg) + shortSignal (pyLower msg) +
      contradictionSignal (pyLower msg) + avoidanceSignal (pyLower msg) +
      questionSignal (pyLower msg) :=
  analyze_message_signal_decomp msg

/-- Claim C1 witness: a message that triggers hedge ("maybe"), short text and
question-mark signals scores 2 + 1 - 0.5 = 2.5. -/
theorem analyze_message_is_signal_sum_witness :
    analyze_message "maybe?".data = 5/2 := by
  have h := analyze_message_is_signal_sum "maybe?".data
  rw [h]
  unfold hedgeSignal shortSignal contradictionSignal avoidanceSignal questionSignal
  norm_num [show hedge_words.any (fun hw => strIn hw (pyLower "maybe?".data)) = true from by decide,
    show tokenCount (pyLower "maybe?".data) < 4 from by decide,
    show (contradiction_phrases.filter
      (fun p => strIn p.1 (pyLower "maybe?".data) && strIn p.2 (pyLower "maybe?".data))) = []
      from by decide,
    show avoidance_phrases.any (fun p => strIn p (pyLower "maybe?".data)) = false from by decide,
    show strIn "?".data (pyLower "maybe?".data) = true from by decide]

/-- Every signal except the question-mark penalty is nonnegative, and that
penalty is at least -0.5, so the total never drops below -0.5. -/
lemma analyze_message_ge (T : List Char) : -(1/2 : ℚ) ≤ analyze_message T := by
  rw [analyze_message_signal_decomp]
  unfold hedgeSignal shortSignal contradictionSignal avoidanceSignal questionSignal
  have hc : (0 : ℚ) ≤ ((contradiction_phrases.filter
      (fun p => strIn p.1 (pyLower T) && strIn p.2 (pyLower T))).length : ℚ) := by
    positivity
  split_ifs <;> linarith

/-- Claim C8: the score can fall below -0.5 only when the text contains a
question mark (vacuously: it never falls below -0.5 at all), and a text with
no hedge phrase, at least 4 tokens, no complete contradiction pair, no
avoidance phrase and no question mark scores exactly 0. -/
theorem analyze_message_lower_bound_and_baseline (T : List Char) :
    (analyze_message T < -(1/2 : ℚ) → '?' ∈ T) ∧
    (¬ hedge_words.any (fun hw => strIn hw (pyLower T)) →
     ¬ tokenCount (pyLower T) < 4 →
     (contradiction_phrases.filter
        (fun p => strIn p.1 (pyLower T) && strIn p.2 (pyLower T))) = [] →
     ¬ avoidance_phrases.any (fun p => strIn p (pyLower T)) →
     ¬ strIn "?".data (pyLower T) →
     analyze_message T = 0) := by
  constructor
  · intro h
    exact absurd h (not_lt.mpr (analyze_message_ge T))
  · intro h1 h2 h3 h4 h5
    rw [analyze_message_signal_decomp]
    unfold hedgeSignal shortSignal contradictionSignal avoidanceSignal questionSignal
    simp [h1, h2, h3, h4, h5]

/-- Claim C8 witness: a plain four-token message with none of the five signals
scores exactly 0. -/
theorem analyze_message_lower_bound_and_baseline_witness :
    analyze_message "four plain words here".data = 0 :=
  (analyze_message_lower_bound_and_baseline "four plain words here".data).2
    (by decide) (by decide) (by decide) (by decide) (by decide)

/-- `Char.toNat` of `Char.ofNat n` is `n` whenever `n` is a valid codepoint. -/
lemma char_toNat_ofNat_valid {n : ℕ} (h : n.isValidChar) : (Char.ofNat n).toNat = n := by
  simp only [Char.ofNat, dif_pos h, Char.ofNatAux, Char.toNat, UInt32.toNat,
    BitVec.toNat_ofNatLt]

/-- ASCII lowering is idempotent. -/
lemma char_toLower_toLower (c : Char) : c.toLower.toLower = c.toLower := by
  unfold Char.toLower
  by_cases h : 65 ≤ c.toNat ∧ c.toNat ≤ 90
  · rw [if_pos h]
    have hv : (c.toNat + 32).isValidChar := Or.inl (by omega)
    rw [char_toNat_ofNat_valid hv]
    rw [if_neg (by omega)]
  · rw [if_neg h, if_neg h]

/-- ASCII lowering of the ASCII uppercasing of a character is its lowering. -/
lemma char_toLower_toUpper (c : Char) : c.toUpper.toLower = c.toLower := by
  unfold Char.toUpper Char.toLower
  by_cases h : 97 ≤ c.toNat ∧ c.toNat ≤ 122
  · rw [if_pos h]
    have hv : (c.toNat - 32).isValidChar := Or.inl (by omega)
    rw [char_toNat_ofNat_valid hv]
    rw [if_pos (by omega), if_neg (by omega)]
    have he : c.toNat - 32 + 32 = c.toNat := by omega
    rw [he, Char.ofNat_toNat]
  · rw [if_neg h]

/-- `pyLower` is idempotent on texts. -/
lemma pyLower_pyLower (T : List Char) : pyLower (pyLower T) = pyLower T := by
  unfold pyLower
  rw [List.map_map]
  exact List.map_congr_left (fun c _ => char_toLower_toLower c)

/-- `analyze_message` only looks at the lowered text. -/
lemma analyze_message_congr (T T' : List Char) (h : pyLower T = pyLower T') :
    analyze_message T = analyze_message T' := by
  simp only [analyze_message, h]

/-- Claim C9: `analyze_message` is invariant under case changes of its input:
any two texts with the same ASCII lowering score identically; in particular a
text scores the same as its uppercased or lowercased variant. -/
theorem analyze_message_case_invariant :
    (∀ T T' : List Char, pyLower T = pyLower T' →
      analyze_message T = analyze_message T') ∧
    (∀ T : List Char,
      analyze_message (T.map Char.toUpper) = analyze_message T ∧
      analyze_message (pyLower T) = analyze_message T) := by
  refine ⟨analyze_message_congr, fun T => ⟨?_, ?_⟩⟩
  · refine analyze_message_congr _ _ ?_
    unfold pyLower
    rw [List.map_map]
    exact List.map_congr_left (fun c _ => char_toLower_toUpper c)
  · exact analyze_message_congr _ _ (pyLower_pyLower T)

/-- Claim C9 witness: the all-caps variant of "maybe?" scores the same as the
lowercase text. -/
theorem analyze_message_case_invariant_witness :
    pyLower "MAYBE?".data = pyLower "maybe?".data ∧
    analyze_message "MAYBE?".data = analyze_message "maybe?".data :=
  ⟨by decide, analyze_message_case_invariant.1 _ _ (by decide)⟩

/-
  The lie-detector endpoint.  Request bodies are JSON values; `JValue` models
  the JSON fragment this endpoint can receive (string, number, array, object,
  null).  `lie_detector_analysis` (src/app.py lines 69-89) receives the
  `messages` list and raises (modelled as `Except.error ()`) exactly where the
  Python code would: `entry.get` on a non-dict entry, `message.lower()` on a
  non-string message, and a dict/list speaker used as a dict key.
-/

/-- A JSON value as delivered by `request.get_json()`. -/
inductive JValue where
  | null : JValue
  | num (q : ℚ) : JValue
  | str (s : List Char) : JValue
  | list (elems : List JValue) : JValue
  | dict (fields : List (String × JValue)) : JValue

/-- A hashable Python value usable as a dict key by the scorer: everything the
`speaker` field can hold except (unhashable) lists and dicts. -/
inductive SpeakerKey where
  | null : SpeakerKey
  | num (q : ℚ) : SpeakerKey
  | str (s : List Char) : SpeakerKey
deriving DecidableEq

/-- Python `d.get(k)` on the fields of a dict: the value at the key. -/
def dictGet (fields : List (String × JValue)) (k : String) : Option JValue :=
  (fields.find? (fun p => p.1 == k)).map (fun p => p.2)

/-- The hashable-key check performed implicitly by `speaker not in scores`:
lists and dicts raise `TypeError`. -/
def toKey : JValue → Option SpeakerKey
  | .null => some .null
  | .num q => some (.num q)
  | .str s => some (.str s)
  | .list _ => none
  | .dict _ => none

/-- The per-entry part of the loop in `lie_detector_analysis` (src/app.py
lines 72-78): reads `speaker` (default `None`) and `message` (default `""`),
scores the message; errors where Python raises. -/
def analyzeEntry (e : JValue) : Except Unit (SpeakerKey × ℚ) :=
  match e with
  | .dict fs =>
    match toKey ((dictGet fs "speaker").getD .null) with
    | none => .error ()
    | some key =>
      match (dictGet fs "message").getD (.str []) with
      | .str m => .ok (key, analyze_message m)
      | _ => .error ()
  | _ => .error ()

/-- `scores[speaker].append(score)` with dict insertion-order semantics on an
association list: updates the first entry with this key, or appends a new
key at the end. -/
def updateScores : List (SpeakerKey × List ℚ) → SpeakerKey → ℚ →
    List (SpeakerKey × List ℚ)
  | [], k, s => [(k, [s])]
  | p :: rest, k, s =>
    if p.1 = k then (p.1, p.2 ++ [s]) :: rest else p :: updateScores rest k s

/-- The grouping loop of `lie_detector_analysis`: folds the entries into the
per-speaker score lists, propagating any raise. -/
def buildScoresAux : List JValue → List (SpeakerKey × List ℚ) →
    Except Unit (List (SpeakerKey × List ℚ))
  | [], acc => .ok acc
  | e :: rest, acc =>
    match analyzeEntry e with
    | .error _ => .error ()
    | .ok (k, s) => buildScoresAux rest (updateScores acc k s)

/-- Python `sum(vals)` for rationals. -/
def sumListQ (l : List ℚ) : ℚ := l.foldl (fun a b => a + b) 0

/-- The verdict thresholds of src/app.py lines 82-87. -/
def verdictOf (avg : ℚ) : List Char :=
  if 6/5 < avg then "Highly Suspicious".data
  else if 1/2 < avg then "Suspicious".data
  else "Likely Truthful".data

/-- `lie_detector_analysis` of src/app.py lines 69-89: groups the scores by
speaker, then maps each speaker to its average score and verdict, in
insertion order. -/
def lie_detector_analysis (messages : List JValue) :
    Except Unit (List (SpeakerKey × ℚ × List Char)) :=
  (buildScoresAux messages []).map (fun scores =>
    scores.map (fun p =>
      (p.1, sumListQ p.2 / (p.2.length : ℚ),
        verdictOf (sumListQ p.2 / (p.2.length : ℚ)))))

/-- Association-list lookup by key (Python dict read). -/
def lookupKey {α : Type} (k : SpeakerKey) (l : List (SpeakerKey × α)) : Option α :=
  (l.find? (fun p => p.1 == k)).map (fun p => p.2)

/-- A well-formed chat message `{"speaker": s, "message": m}` with string
speaker and string message, encoded as the JSON object the endpoint receives. -/
def encodeMsg (e : List Char × List Char) : JValue :=
  .dict [("speaker", .str e.1), ("message", .str e.2)]

/-- The scores of one speaker's messages, in input order. -/
def speakerScores (sp : List Char) (msgs : List (List Char × List Char)) : List ℚ :=
  (msgs.filter (fun e => e.1 == sp)).map (fun e => analyze_message e.2)

/-- Scoring a well-formed encoded message never raises and yields the string
speaker key with the message's score. -/
lemma analyzeEntry_encode (e : List Char × List Char) :
    analyzeEntry (encodeMsg e) = .ok (.str e.1, analyze_message e.2) := rfl

/-- The grouping fold over well-formed encoded messages never raises and
equals the pure fold of `updateScores`. -/
lemma buildScoresAux_encode (msgs : List (List Char × List Char))
    (acc : List (SpeakerKey × List ℚ)) :
    buildScoresAux (msgs.map encodeMsg) acc =
      .ok (msgs.foldl
        (fun a e => updateScores a (.str e.1) (analyze_message e.2)) acc) := by
  induction msgs generalizing acc with
  | nil => rfl
  | cons e rest ih =>
    simp only [List.map_cons, List.foldl_cons, buildScoresAux, analyzeEntry_encode]
    exact ih _

/-- Lookup after `updateScores`: the updated key gains the new score at the
end of its list; other keys are untouched. -/
lemma lookup_updateScores (acc : List (SpeakerKey × List ℚ))
    (k k' : SpeakerKey) (s : ℚ) :
    lookupKey k' (updateScores acc k s) =
      if k' = k then some ((lookupKey k' acc).getD [] ++ [s])
      else lookupKey k' acc := by
  induction acc with
  | nil =>
    by_cases h : k' = k
    · simp [updateScores, lookupKey, h]
    · have h2 : ¬ k = k' := fun he => h he.symm
      simp [updateScores, lookupKey, h, h2]
  | cons p rest ih =>
    by_cases hp : p.1 = k
    · by_cases h : k' = k
      · have hb2 : (p.1 == k') = true := beq_iff_eq.mpr (by rw [hp, h])
        simp [updateScores, if_pos hp, lookupKey, if_pos h, List.find?_cons, hb2]
      · have hne : p.1 ≠ k' := fun he => h (by rw [← he, hp])
        have hb2 : (p.1 == k') = false := beq_eq_false_iff_ne.mpr hne
        simp [updateScores, if_pos hp, lookupKey, if_neg h, List.find?_cons, hb2]
    · by_cases h : k' = k
      · have hne : p.1 ≠ k' := fun he => hp (by rw [he, h])
        have hb2 : (p.1 == k') = false := beq_eq_false_iff_ne.mpr hne
        simp only [updateScores, if_neg hp]
        simp only [lookupKey, List.find?_cons, hb2] at ih ⊢
        rw [ih, if_pos h]
      · by_cases hpk : p.1 = k'
        · have hb2 : (p.1 == k') = true := beq_iff_eq.mpr hpk
          simp [updateScores, if_neg hp, lookupKey, if_neg h, List.find?_cons, hb2]
        · have hb2 : (p.1 == k') = false := beq_eq_false_iff_ne.mpr hpk
          simp only [updateScores, if_neg hp]
          simp only [lookupKey, List.find?_cons, hb2] at ih ⊢
          rw [ih, if_neg h]

/-- Lookup of one speaker in the grouped scores built by the folding loop:
the speaker's accumulated list is extended by the scores of its messages. -/
lemma lookup_scores_foldl (msgs : List (List Char × List Char)) (sp : List Char)
    (acc : List (SpeakerKey × List ℚ)) :
    lookupKey (.str sp) (msgs.foldl
      (fun a e => updateScores a (.str e.1) (analyze_message e.2)) acc) =
      (lookupKey (.str sp) acc).elim
        (if speakerScores sp msgs = [] then none else some (speakerScores sp msgs))
        (fun l => some (l ++ speakerScores sp msgs)) := by
  induction msgs generalizing acc with
  | nil =>
    rcases h : lookupKey (SpeakerKey.str sp) acc with _ | l <;>
      simp [h, speakerScores, List.foldl_nil]
  | cons e rest ih =>
    simp only [List.foldl_cons]
    rw [ih]
    rw [lookup_updateScores]
    by_cases hsp : sp = e.1
    · have hinj : SpeakerKey.str sp = SpeakerKey.str e.1 := by rw [hsp]
      rw [if_pos hinj]
      have hsc : speakerScores sp (e :: rest) =
          analyze_message e.2 :: speakerScores sp rest := by
        simp [speakerScores, List.filter_cons, beq_iff_eq, hsp.symm]
      rw [hsc]
      rcases h : lookupKey (SpeakerKey.str sp) acc with _ | l
      · simp [Option.elim]
      · simp [Option.elim]
    · have hinj : SpeakerKey.str sp ≠ SpeakerKey.str e.1 := by
        intro he
        exact hsp (SpeakerKey.str.injEq sp e.1 ▸ he)
      rw [if_neg hinj]
      have hsc : speakerScores sp (e :: rest) = speakerScores sp rest := by
        have : (e.1 == sp) = false := beq_eq_false_iff_ne.mpr (fun he => hsp he.symm)
        simp [speakerScores, List.filter_cons, this]
      rw [hsc]

/-- Lookup commutes with mapping the values of an association list. -/
lemma lookupKey_map {α β : Type} (k : SpeakerKey) (l : List (SpeakerKey × α))
    (f : α → β) :
    lookupKey k (l.map (fun p => (p.1, f p.2))) = (lookupKey k l).map f := by
  induction l with
  | nil => rfl
  | cons p rest ih =>
    by_cases hb : (p.1 == k) = true
    · simp [lookupKey, List.find?_cons, hb]
    · have hb2 : (p.1 == k) = false := by simpa using hb
      simp only [lookupKey, List.map_cons, List.find?_cons, hb2] at ih ⊢
      exact ih

/-- A speaker that appears in the input has a nonempty score list. -/
lemma speakerScores_ne_nil (msgs : List (List Char × List Char)) (sp : List Char)
    (h : sp ∈ msgs.map (fun e => e.1)) : speakerScores sp msgs ≠ [] := by
  rcases List.mem_map.mp h with ⟨e, he, hsp⟩
  have : e ∈ msgs.filter (fun e => e.1 == sp) :=
    List.mem_filter.mpr ⟨he, beq_iff_eq.mpr hsp⟩
  simp only [speakerScores, ne_eq, List.map_eq_nil_iff]
  intro hnil
  rw [hnil] at this
  simp at this

/-- Claim C3: on a non-empty list of well-formed chat messages the analysis
groups scores by speaker; each speaker present in the input is mapped to the
arithmetic mean of its message scores together with the verdict given by the
strict thresholds (average > 1.2: Highly Suspicious; 0.5 < average <= 1.2:
Suspicious; average <= 0.5: Likely Truthful), so an average of exactly 1.2 is
Suspicious, an average of exactly 0.5 is Likely Truthful, and a single-message
speaker's average is that message's score. -/
theorem lie_detector_analysis_spec (msgs : List (List Char × List Char))
    (hne : msgs ≠ []) :
    ∃ summary, lie_detector_analysis (msgs.map encodeMsg) = .ok summary ∧
      ∀ sp ∈ msgs.map (fun e => e.1),
        ∃ avg, lookupKey (.str sp) summary = some (avg, verdictOf avg) ∧
          avg = sumListQ (speakerScores sp msgs) /
            ((speakerScores sp msgs).length : ℚ) ∧
          (6/5 < avg → verdictOf avg = "Highly Suspicious".data) ∧
          (1/2 < avg → avg ≤ 6/5 → verdictOf avg = "Suspicious".data) ∧
          (avg ≤ 1/2 → verdictOf avg = "Likely Truthful".data) ∧
          (∀ x, speakerScores sp msgs = [x] → avg = x) := by
  unfold lie_detector_analysis
  rw [buildScoresAux_encode msgs []]
  simp only [Except.map]
  refine ⟨_, rfl, ?_⟩
  intro sp hsp
  have hlook := lookup_scores_foldl msgs sp []
  have hnil : lookupKey (SpeakerKey.str sp) ([] : List (SpeakerKey × List ℚ)) = none := rfl
  rw [hnil] at hlook
  simp only [Option.elim] at hlook
  rw [if_neg (speakerScores_ne_nil msgs sp hsp)] at hlook
  rw [lookupKey_map (SpeakerKey.str sp) _
    (fun vals => (sumListQ vals / (vals.length : ℚ),
      verdictOf (sumListQ vals / (vals.length : ℚ)))), hlook]
  refine ⟨_, rfl, rfl, ?_, ?_, ?_, ?_⟩
  · intro h
    unfold verdictOf
    rw [if_pos h]
  · intro h1 h2
    unfold verdictOf
    rw [if_neg (by linarith), if_pos h1]
  · intro h
    unfold verdictOf
    rw [if_neg (by linarith), if_neg (by linarith)]
  · intro x hx
    rw [hx]
    simp [sumListQ]

/-- Claim C3 witness: the analysis succeeds on a concrete one-message
conversation. -/
theorem lie_detector_analysis_spec_witness :
    ∃ summary,
      lie_detector_analysis ([("alice".data, "maybe?".data)].map encodeMsg) =
        .ok summary := by
  obtain ⟨s, hs, _⟩ := lie_detector_analysis_spec [("alice".data, "maybe?".data)]
    (by decide)
  exact ⟨s, hs⟩

/-- The body of a `/lie-detector` success response: either the fixed
invalid-input message or the per-speaker summary. -/
inductive LDResponse where
  | msg (s : List Char) : LDResponse
  | summary (entries : List (SpeakerKey × ℚ × List Char)) : LDResponse
deriving DecidableEq

/-- The fixed invalid-input message of src/app.py line 196. -/
def invalidLDChars : List Char :=
  "Invalid input. Send a list of messages with speaker and message.".data

/-- The `/lie-detector` handler of src/app.py lines 191-198 on a JSON-object
body: reads `messages` (default `[]`), answers the fixed message when it is
not a list, otherwise analyzes it; `data.get` on a non-object body raises. -/
def lie_detector_route (data : JValue) : Except Unit LDResponse :=
  match data with
  | .dict fs =>
    match (dictGet fs "messages").getD (.list []) with
    | .list msgs => (lie_detector_analysis msgs).map LDResponse.summary
    | _ => .ok (.msg invalidLDChars)
  | _ => .error ()

/-- Claim C4 counterexample: a list-valued `messages` whose element is a bare
number makes the handler raise (Python: `AttributeError` on `entry.get`),
so not every list value is analyzed and answered without raising. -/
theorem lie_detector_route_counterexample :
    lie_detector_route (.dict [("messages", .list [.num 1])]) = .error () := rfl

/-- An entry the analysis loop accepts without raising: a dict whose
`speaker` value is hashable and whose `message` value, when present, is a
string. -/
def entryOk (e : JValue) : Bool :=
  match e with
  | .dict fs =>
    (toKey ((dictGet fs "speaker").getD .null)).isSome &&
    (match (dictGet fs "message").getD (.str []) with
     | .str _ => true
     | _ => false)
  | _ => false

/-- An acceptable entry scores without raising. -/
lemma analyzeEntry_ok_of_entryOk (e : JValue) (h : entryOk e) :
    ∃ k s, analyzeEntry e = .ok (k, s) := by
  cases e with
  | dict fs =>
    simp only [entryOk] at h
    rcases hk : toKey ((dictGet fs "speaker").getD .null) with _ | key
    · rw [hk] at h
      simp at h
    · rcases hm : (dictGet fs "message").getD (.str []) with _ | q | m | l | fs2
      · rw [hk, hm] at h
        simp at h
      · rw [hk, hm] at h
        simp at h
      · exact ⟨key, analyze_message m, by simp only [analyzeEntry, hk, hm]⟩
      · rw [hk, hm] at h
        simp at h
      · rw [hk, hm] at h
        simp at h
  | null => simp [entryOk] at h
  | num q => simp [entryOk] at h
  | str s => simp [entryOk] at h
  | list l => simp [entryOk] at h

/-- The grouping loop never raises when every entry is acceptable. -/
lemma buildScoresAux_ok_of_all (msgs : List JValue)
    (h : ∀ e ∈ msgs, entryOk e) (acc : List (SpeakerKey × List ℚ)) :
    ∃ scores, buildScoresAux msgs acc = .ok scores := by
  induction msgs generalizing acc with
  | nil => exact ⟨acc, rfl⟩
  | cons e rest ih =>
    obtain ⟨k, s, hks⟩ := analyzeEntry_ok_of_entryOk e (h e (by simp))
    simp only [buildScoresAux, hks]
    exact ih (fun e' he' => h e' (by simp [he'])) _

/-- Claim C4 (amended): on a JSON-object body, a non-list `messages` value is
answered with the fixed invalid-input message, and a list value is analyzed
and answered without raising provided every element is a dict whose `speaker`
value is hashable and whose `message` value, when present, is a string;
a list element of a different shape makes the handler raise. -/
theorem lie_detector_route_spec (fs : List (String × JValue)) :
    ((∀ msgs : List JValue, (dictGet fs "messages").getD (.list []) ≠ .list msgs) →
      lie_detector_route (.dict fs) = .ok (.msg invalidLDChars)) ∧
    (∀ msgs : List JValue, (dictGet fs "messages").getD (.list []) = .list msgs →
      (∀ e ∈ msgs, entryOk e) →
      ∃ s, lie_detector_route (.dict fs) = .ok (.summary s)) := by
  constructor
  · intro hnl
    rcases hm : (dictGet fs "messages").getD (.list []) with _ | q | s | l | fs2
    · simp [lie_detector_route, hm]
    · simp [lie_detector_route, hm]
    · simp [lie_detector_route, hm]
    · exact absurd hm (hnl l)
    · simp [lie_detector_route, hm]
  · intro msgs hm hok
    simp only [lie_detector_route, hm]
    obtain ⟨scores, hs⟩ := buildScoresAux_ok_of_all msgs hok []
    unfold lie_detector_analysis
    rw [hs]
    exact ⟨_, rfl⟩

/-- Claim C4 witness: a well-formed one-entry body is answered with a summary
response. -/
theorem lie_detector_route_spec_witness :
    ∃ s, lie_detector_route (.dict [("messages", .list
      [.dict [("speaker", .str "a".data), ("message", .str "hi".data)]])]) =
        .ok (.summary s) :=
  (lie_detector_route_spec _).2 _ rfl (by
    intro e he
    simp only [List.mem_singleton] at he
    rw [he]
    rfl)

/-
  Rock-paper-scissors.  `random.choice(choices)` is modelled by an explicit
  stream of moves `gen : ℕ → RPSMove` with a cursor `pos`: a draw reads
  `gen pos` and advances the cursor, so an unchanged cursor witnesses that no
  draw was performed.
-/

/-- One of the three legal moves. -/
inductive RPSMove where
  | rock : RPSMove
  | paper : RPSMove
  | scissors : RPSMove
deriving DecidableEq

/-- The string a move is written as. -/
def moveChars : RPSMove → List Char
  | .rock => "rock".data
  | .paper => "paper".data
  | .scissors => "scissors".data

/-- The `choices` list of src/app.py line 94. -/
def rps_choices : List (List Char) := ["rock".data, "paper".data, "scissors".data]

/-- The result of `rps_play`: the error dict or the played dict. -/
inductive RPSOut where
  | invalid (msg : List Char) : RPSOut
  | played (player computer result : List Char) : RPSOut
deriving DecidableEq

/-- The fixed invalid-choice message of src/app.py line 97. -/
def invalidRPSChars : List Char :=
  "Invalid choice. Choose rock, paper, or scissors.".data

/-- `rps_play` of src/app.py lines 93-108: lowercases the choice, rejects it
unless it is one of the three legal strings (performing no draw), otherwise
draws the computer move and resolves tie/win/lose exactly as the code's
string comparisons do. -/
def rps_play (choice : List Char) (gen : ℕ → RPSMove) (pos : ℕ) : RPSOut × ℕ :=
  let pc := pyLower choice
  if pc ∈ rps_choices then
    let comp := moveChars (gen pos)
    let result :=
      if pc = comp then "tie".data
      else if (pc = "rock".data ∧ comp = "scissors".data) ∨
              (pc = "paper".data ∧ comp = "rock".data) ∨
              (pc = "scissors".data ∧ comp = "paper".data) then "win".data
      else "lose".data
    (.played pc comp result, pos + 1)
  else (.invalid invalidRPSChars, pos)

/-- The cyclic dominance rule of the spec: rock beats scissors, scissors
beats paper, paper beats rock. -/
def beats (p c : RPSMove) : Prop :=
  (p = .rock ∧ c = .scissors) ∨ (p = .paper ∧ c = .rock) ∨
  (p = .scissors ∧ c = .paper)

instance beats_decidable (p c : RPSMove) : Decidable (beats p c) := by
  unfold beats
  infer_instance

/-- Claim C6: an invalid (lowered) choice yields the fixed error with the
draw cursor untouched; a valid choice draws once and the result is tie
exactly when the computer's move equals the player's, win exactly when the
player's move beats the computer's under the cyclic rule, and lose
otherwise. -/
theorem rps_play_spec (choice : List Char) (gen : ℕ → RPSMove) (pos : ℕ) :
    (pyLower choice ∉ rps_choices →
      rps_play choice gen pos = (.invalid invalidRPSChars, pos)) ∧
    (∀ mv : RPSMove, pyLower choice = moveChars mv →
      ∃ r, rps_play choice gen pos =
          (.played (moveChars mv) (moveChars (gen pos)) r, pos + 1) ∧
        (r = "tie".data ↔ gen pos = mv) ∧
        (r = "win".data ↔ beats mv (gen pos)) ∧
        (r = "lose".data ↔ (gen pos ≠ mv ∧ ¬ beats mv (gen pos)))) := by
  constructor
  · intro h
    simp only [rps_play]
    rw [if_neg h]
  · intro mv hmv
    cases mv <;> cases hg : gen pos <;>
      (simp only [rps_play]; rw [hmv, hg]) <;>
      exact ⟨_, rfl, by decide, by decide, by decide⟩

/-- Claim C6 witness: "ROCK" against a drawn scissors is a win, with the
cursor advanced once. -/
theorem rps_play_spec_witness :
    pyLower "ROCK".data = moveChars .rock ∧
    ∃ r, rps_play "ROCK".data (fun _ => RPSMove.scissors) 0 =
        (.played (moveChars .rock) (moveChars RPSMove.scissors) r, 1) ∧
      (r = "tie".data ↔ RPSMove.scissors = RPSMove.rock) ∧
      (r = "win".data ↔ beats RPSMove.rock RPSMove.scissors) ∧
      (r = "lose".data ↔ (RPSMove.scissors ≠ RPSMove.rock ∧
        ¬ beats RPSMove.rock RPSMove.scissors)) :=
  ⟨by decide, (rps_play_spec "ROCK".data (fun _ => RPSMove.scissors) 0).2
    RPSMove.rock (by decide)⟩

/-- Python `str.strip()`: drop leading and trailing whitespace. -/
def pyStrip (s : List Char) : List Char :=
  ((s.dropWhile isPySpace).reverse.dropWhile isPySpace).reverse

/-- The value of a nonempty all-digit string (helper for `int(str)`). -/
def digitsVal (l : List Char) : Option ℕ :=
  if l ≠ [] ∧ l.all (fun c => c.isDigit) then
    some (l.foldl (fun a c => 10 * a + (c.toNat - 48)) 0)
  else none

/-- Python `int(str)`: optional surrounding whitespace, an optional sign and a
nonempty run of decimal digits (digit-group underscores are not modelled). -/
def parseIntChars (s : List Char) : Option ℤ :=
  match pyStrip s with
  | '+' :: rest => (digitsVal rest).map (fun n => (n : ℤ))
  | '-' :: rest => (digitsVal rest).map (fun n => -(n : ℤ))
  | t => (digitsVal t).map (fun n => (n : ℤ))

/-- Python `int(float)`: truncation toward zero. -/
def pyTruncQ (q : ℚ) : ℤ :=
  if 0 ≤ q.num then ((q.num.toNat / q.den : ℕ) : ℤ)
  else -(((-q.num).toNat / q.den : ℕ) : ℤ)

/-- Python `int(x)` on a JSON value: numbers truncate toward zero, strings
parse as decimal integers, everything else raises (caught by the handler). -/
def pyIntOfJ : JValue → Option ℤ
  | .num q => some (pyTruncQ q)
  | .str s => parseIntChars s
  | _ => none

/-- A `/set-alarm` request body: an object with an optional `minutes` JSON
value and an optional `message` string (the interface's declared type). -/
structure AlarmBody where
  minutes : Option JValue
  message : Option (List Char)

/-- A background alarm thread as started by `set_alarm` (src/app.py lines
134-137): it sleeps `minutes * 60` seconds, then writes the value under the
message key in the process-wide `alarms` dict. -/
structure AlarmTask where
  sleepSeconds : ℤ
  key : List Char
  value : List Char
deriving DecidableEq

/-- The fixed invalid-input message of src/app.py line 218. -/
def invalidAlarmChars : List Char :=
  "Invalid input. Provide positive minutes and a message.".data

/-- The confirmation f-string of src/app.py line 138. -/
def alarmConfirm (m : ℤ) (msg : List Char) : List Char :=
  "Alarm set for ".data ++ (toString m).data ++
  " minutes from now with message: '".data ++ msg ++ "'".data

/-- The background task `set_alarm` spawns, including the value its thread
will eventually write. -/
def alarmTask (m : ℤ) (msg : List Char) : AlarmTask :=
  ⟨m * 60, msg,
   "Alarm: ".data ++ msg ++ " (set ".data ++ (toString m).data ++
   " minutes ago)!".data⟩

/-- `set_alarm` of src/app.py lines 133-138: starts the background thread and
returns the confirmation immediately. -/
def set_alarm (m : ℤ) (msg : List Char) : List Char × AlarmTask :=
  (alarmConfirm m msg, alarmTask m msg)

/-- The `/set-alarm` handler of src/app.py lines 209-220: coerces `minutes`
(default 0) to an int, rejects a failed coercion, a non-positive value or an
empty message with the fixed message, otherwise calls `set_alarm`.  The
result is (response, background tasks started, alarm state after the
handler); the handler itself never writes the alarm state. -/
def alarm_route (data : AlarmBody) (alarms : List (List Char × List Char)) :
    List Char × List AlarmTask × List (List Char × List Char) :=
  match pyIntOfJ (data.minutes.getD (.num 0)) with
  | none => (invalidAlarmChars, [], alarms)
  | some m =>
    if m ≤ 0 ∨ data.message.getD [] = [] then (invalidAlarmChars, [], alarms)
    else ((set_alarm m (data.message.getD [])).1,
          [(set_alarm m (data.message.getD [])).2], alarms)

/-- Claim C7: when `minutes` does not coerce to a positive integer or the
message is empty, the handler answers the fixed invalid-input message, starts
no background task and leaves the alarm state unchanged; otherwise it answers
the confirmation string immediately (starting exactly the one task and still
not touching the alarm state in-band). -/
theorem alarm_route_spec (data : AlarmBody)
    (alarms : List (List Char × List Char)) :
    ((pyIntOfJ (data.minutes.getD (.num 0)) = none ∨
      (∃ m, pyIntOfJ (data.minutes.getD (.num 0)) = some m ∧ m ≤ 0) ∨
      data.message.getD [] = []) →
      alarm_route data alarms = (invalidAlarmChars, [], alarms)) ∧
    (∀ m, pyIntOfJ (data.minutes.getD (.num 0)) = some m → 0 < m →
      data.message.getD [] ≠ [] →
      alarm_route data alarms =
        (alarmConfirm m (data.message.getD []),
         [alarmTask m (data.message.getD [])], alarms)) := by
  constructor
  · intro h
    rcases h with h | ⟨m, hm, hle⟩ | hmsg
    · simp only [alarm_route, h]
    · simp only [alarm_route, hm]
      rw [if_pos (Or.inl hle)]
    · rcases hc : pyIntOfJ (data.minutes.getD (.num 0)) with _ | m
      · simp only [alarm_route, hc]
      · simp only [alarm_route, hc]
        rw [if_pos (Or.inr hmsg)]
  · intro m hm hpos hmsg
    simp only [alarm_route, hm]
    rw [if_neg (by push_neg; exact ⟨by omega, hmsg⟩)]
    rfl

/-- Claim C7 witness: minutes "5" with message "tea" is confirmed and spawns
one 300-second task. -/
theorem alarm_route_spec_witness :
    pyIntOfJ ((AlarmBody.mk (some (.str "5".data)) (some "tea".data)).minutes.getD
      (.num 0)) = some 5 ∧
    alarm_route (AlarmBody.mk (some (.str "5".data)) (some "tea".data)) [] =
      (alarmConfirm 5 "tea".data, [alarmTask 5 "tea".data], []) :=
  ⟨by decide, (alarm_route_spec _ []).2 5 (by decide) (by decide) (by decide)⟩

/-- First occurrence split: `some (pre, post)` when `s = pre ++ sep ++ post`
with `pre` shortest, `none` when `sep` does not occur in `s`. -/
def splitFirst (sep : List Char) : List Char → Option (List Char × List Char)
  | [] => none
  | c :: rest =>
    if sep.isPrefixOf (c :: rest) then some ([], (c :: rest).drop sep.length)
    else (splitFirst sep rest).map (fun pr => (c :: pr.1, pr.2))

/-- Fuel-driven body of `pySplit`; the fuel only has to dominate the number
of separator occurrences, and each split strictly shortens the rest, so
`s.length` at the entry point is always enough. -/
def pySplitGo (sep : List Char) : ℕ → List Char → List (List Char)
  | 0, s => [s]
  | fuel + 1, s =>
    match splitFirst sep s with
    | none => [s]
    | some pr => pr.1 :: pySplitGo sep fuel pr.2

/-- Python `s.split(sep)` for a nonempty separator: the pieces between
non-overlapping occurrences of `sep`, scanned left to right; always a
nonempty list (`"".split(sep) == [""]`). -/
def pySplit (sep s : List Char) : List (List Char) := pySplitGo sep s.length s

/-- Python `sep.join(pieces)`. -/
def joinSep (sep : List Char) : List (List Char) → List Char
  | [] => []
  | [x] => x
  | x :: rest => x ++ sep ++ joinSep sep rest

/-- The pure part of `get_wiki_intro` (src/app.py lines 119-124) after the
fetch and HTML parse: given the extracted paragraph texts, joins those with
non-whitespace content with single spaces, splits on ". ", and rejoins the
first three pieces with ". " plus a trailing period; the code's `if lines`
guard selects the "No summary available." fallback only when the split list
is empty. -/
def get_wiki_intro_core (paragraphs : List (List Char)) : List Char :=
  let text := joinSep " ".data
    (paragraphs.filter (fun p => !(pyStrip p).isEmpty))
  let lines := pySplit ". ".data text
  if !lines.isEmpty then joinSep ". ".data (lines.take 3) ++ ".".data
  else "No summary available.".data

/-- Claim C5 (code bug): when no paragraph text is found the concatenated
text is empty, but `"".split(". ")` is `[""]`, which is truthy, so the
summarizer returns "." and the "No summary available." branch is dead; the
same happens when every paragraph is whitespace-only. -/
theorem get_wiki_intro_core_empty_returns_dot :
    get_wiki_intro_core [] = ".".data ∧
    get_wiki_intro_core [" ".data] = ".".data ∧
    get_wiki_intro_core [] ≠ "No summary available.".data := by
  refine ⟨rfl, rfl, ?_⟩
  decide

/-
  The fuzzy matcher.  `find_best_match` delegates to
  `difflib.get_close_matches(word, possibilities, n=1, cutoff=0.65)`, which
  scores every candidate with `SequenceMatcher.ratio()` (Ratcliff-Obershelp:
  twice the total size of the recursively chosen matching blocks over the sum
  of the lengths), keeps the candidates scoring at least the cutoff, and
  returns the largest `(score, candidate)` pair under Python tuple ordering.
-/

/-- Length of the common prefix of two texts. -/
def cplLen : List Char → List Char → ℕ
  | c :: cs, d :: ds => if c = d then cplLen cs ds + 1 else 0
  | _, _ => 0

/-- Length of the matching block starting at positions `i` of `a` and `j` of
`b`, confined to the windows `[i, ahi)` and `[j, bhi)`. -/
def matchLen (a b : List Char) (ahi bhi i j : ℕ) : ℕ :=
  cplLen ((a.drop i).take (ahi - i)) ((b.drop j).take (bhi - j))

/-- `SequenceMatcher.find_longest_match` on the windows `[alo, ahi)` of `a`
and `[blo, bhi)` of `b`: the longest matching block, the one starting
earliest in `a` and then earliest in `b` among ties, and `(alo, blo, 0)`
when the windows share nothing.  Junk is not modelled: the matcher is built
with no junk predicate, and the autojunk popularity heuristic only fires for
a second sequence of length at least 200. -/
def flm (a b : List Char) (alo ahi blo bhi : ℕ) : ℕ × ℕ × ℕ :=
  (List.range' alo (ahi - alo)).foldl (fun best i =>
    (List.range' blo (bhi - blo)).foldl (fun bst j =>
      if bst.2.2 < matchLen a b ahi bhi i j then (i, j, matchLen a b ahi bhi i j)
      else bst) best) (alo, blo, 0)

/-- Total size of the matching blocks found by difflib's recursive
`get_matching_blocks` walk: recurse left of the longest block, count it,
recurse right of it.  Fuel-driven; every recursive window is strictly
smaller than the enclosing one, so fuel `ahi - alo` at the entry point is
always enough (the 0-fuel row is only reached for empty windows, where the
recursion would return 0 anyway). -/
def matchSumGo (a b : List Char) : ℕ → ℕ → ℕ → ℕ → ℕ → ℕ
  | 0, _, _, _, _ => 0
  | fuel + 1, alo, ahi, blo, bhi =>
    if (flm a b alo ahi blo bhi).2.2 = 0 then 0
    else
      matchSumGo a b fuel alo (flm a b alo ahi blo bhi).1 blo
        (flm a b alo ahi blo bhi).2.1 +
      (flm a b alo ahi blo bhi).2.2 +
      matchSumGo a b fuel
        ((flm a b alo ahi blo bhi).1 + (flm a b alo ahi blo bhi).2.2) ahi
        ((flm a b alo ahi blo bhi).2.1 + (flm a b alo ahi blo bhi).2.2) bhi

/-- Total matched size between the full sequences. -/
def matchTotal (a b : List Char) : ℕ :=
  matchSumGo a b a.length 0 a.length 0 b.length

/-- `SequenceMatcher(None, a, b).ratio()`: `2*M / (len(a)+len(b))`, defined
as 1.0 when both sequences are empty. -/
def ratioQ (a b : List Char) : ℚ :=
  if a.length + b.length = 0 then 1
  else 2 * (matchTotal a b : ℚ) / ((a.length : ℚ) + (b.length : ℚ))

/-- Python string comparison `x < y`: lexicographic by code point. -/
def lexLt : List Char → List Char → Bool
  | [], [] => false
  | [], _ :: _ => true
  | _ :: _, [] => false
  | c :: cs, d :: ds => if c < d then true else if c = d then lexLt cs ds else false

/-- Python tuple comparison `c > b` on (score, candidate) pairs. -/
def pairGT (c b : ℚ × List Char) : Bool :=
  if b.1 < c.1 then true else if c.1 = b.1 then lexLt b.2 c.2 else false

/-- One step of Python's `max`: the incumbent survives unless strictly
beaten. -/
def maxStep (acc : Option (ℚ × List Char)) (c : ℚ × List Char) :
    Option (ℚ × List Char) :=
  match acc with
  | none => some c
  | some b => if pairGT c b then some c else some b

/-- `heapq.nlargest(1, result)` as `get_close_matches` uses it for `n=1`:
Python's `max`, or nothing for an empty list. -/
def maxArg (l : List (ℚ × List Char)) : Option (ℚ × List Char) :=
  l.foldl maxStep none

/-- The scored candidate list built inside `get_close_matches(word,
possibilities, 1, 0.65)`: each lowered candidate with its ratio against the
lowered user text, kept when the ratio reaches the cutoff.  (The
`real_quick_ratio` and `quick_ratio` guards are upper bounds of `ratio`, so
the filter is exactly `ratio >= cutoff`.) -/
def candidatePairs (user : List Char) (questions : List (List Char)) :
    List (ℚ × List Char) :=
  (questions.map pyLower).filterMap (fun x =>
    if 13/20 ≤ ratioQ x (pyLower user) then some (ratioQ x (pyLower user), x)
    else none)

/-- `find_best_match` of src/app.py lines 18-20: the best close match among
the lowered questions, or `none` when no candidate reaches the cutoff. -/
def find_best_match (user : List Char) (questions : List (List Char)) :
    Option (List Char) :=
  (maxArg (candidatePairs user questions)).map (fun p => p.2)

/-- One knowledge-base entry `{question, answer}`. -/
structure KBEntry where
  question : List Char
  answer : List Char

/-- The knowledge base: its ordered list of entries. -/
structure KnowledgeBase where
  questions : List KBEntry

/-- `get_answer_for_question` of src/app.py lines 22-26: the answer of the
first entry whose question equals the given one case-insensitively. -/
def get_answer_for_question (question : List Char) (kb : KnowledgeBase) :
    Option (List Char) :=
  (kb.questions.find? (fun q => pyLower q.question == pyLower question)).map
    (fun q => q.answer)






/-- A common prefix is no longer than the left text. -/
lemma cplLen_le_left (xs ys : List Char) : cplLen xs ys ≤ xs.length := by
  induction xs generalizing ys with
  | nil => simp [cplLen]
  | cons c cs ih =>
    cases ys with
    | nil => simp [cplLen]
    | cons d ds =>
      simp only [cplLen, List.length_cons]
      split
      · exact Nat.succ_le_succ (ih ds)
      · exact Nat.zero_le _

/-- A common prefix is no longer than the right text. -/
lemma cplLen_le_right (xs ys : List Char) : cplLen xs ys ≤ ys.length := by
  induction xs generalizing ys with
  | nil => simp [cplLen]
  | cons c cs ih =>
    cases ys with
    | nil => simp [cplLen]
    | cons d ds =>
      simp only [cplLen, List.length_cons]
      split
      · exact Nat.succ_le_succ (ih ds)
      · exact Nat.zero_le _

/-- A text is its own common prefix. -/
lemma cplLen_self (xs : List Char) : cplLen xs xs = xs.length := by
  induction xs with
  | nil => simp [cplLen]
  | cons c cs ih => simp [cplLen, ih]

/-- A block fits in the `a`-window. -/
lemma matchLen_le_a (a b : List Char) (ahi bhi i j : ℕ) :
    matchLen a b ahi bhi i j ≤ ahi - i := by
  refine le_trans (cplLen_le_left _ _) ?_
  simp [List.length_take]

/-- A block fits in the `b`-window. -/
lemma matchLen_le_b (a b : List Char) (ahi bhi i j : ℕ) :
    matchLen a b ahi bhi i j ≤ bhi - j := by
  refine le_trans (cplLen_le_right _ _) ?_
  simp [List.length_take]

/-- On the diagonal of a text against itself, a block fills the window. -/
lemma matchLen_diag (a : List Char) (ahi i : ℕ) (hlen : ahi ≤ a.length) :
    matchLen a a ahi ahi i i = ahi - i := by
  unfold matchLen
  rw [cplLen_self]
  simp only [List.length_take, List.length_drop]
  omega

/-- Fold invariant principle. -/
lemma foldl_inv {α β : Type} (P : β → Prop) (f : β → α → β) (l : List α)
    (init : β) (h0 : P init)
    (hstep : ∀ acc x, x ∈ l → P acc → P (f acc x)) : P (l.foldl f init) := by
  induction l generalizing init with
  | nil => exact h0
  | cons x rest ih =>
    exact ih (f init x) (hstep init x (by simp) h0)
      (fun acc y hy hacc => hstep acc y (by simp [hy]) hacc)

/-- Any nonzero block reported by `find_longest_match` lies inside the
windows. -/
lemma flm_bounds (a b : List Char) (alo ahi blo bhi : ℕ) :
    (flm a b alo ahi blo bhi).2.2 ≠ 0 →
      alo ≤ (flm a b alo ahi blo bhi).1 ∧
      (flm a b alo ahi blo bhi).1 + (flm a b alo ahi blo bhi).2.2 ≤ ahi ∧
      blo ≤ (flm a b alo ahi blo bhi).2.1 ∧
      (flm a b alo ahi blo bhi).2.1 + (flm a b alo ahi blo bhi).2.2 ≤ bhi := by
  unfold flm
  refine foldl_inv (fun (best : ℕ × ℕ × ℕ) => best.2.2 ≠ 0 →
    alo ≤ best.1 ∧ best.1 + best.2.2 ≤ ahi ∧
    blo ≤ best.2.1 ∧ best.2.1 + best.2.2 ≤ bhi) _ _ _ (by simp) ?_
  intro acc i hi hacc
  have hib := List.mem_range'_1.mp hi
  refine foldl_inv (fun (best : ℕ × ℕ × ℕ) => best.2.2 ≠ 0 →
    alo ≤ best.1 ∧ best.1 + best.2.2 ≤ ahi ∧
    blo ≤ best.2.1 ∧ best.2.1 + best.2.2 ≤ bhi) _ _ _ hacc ?_
  intro bst j hj hbst
  have hjb := List.mem_range'_1.mp hj
  split
  · intro _
    have hka := matchLen_le_a a b ahi bhi i j
    have hkb := matchLen_le_b a b ahi bhi i j
    dsimp only
    refine ⟨by omega, by omega, by omega, by omega⟩
  · exact hbst

/-- The inner fold of `flm` keeps its incumbent when no block at `i` beats
it. -/
lemma foldl_inner_keep (a b : List Char) (ahi bhi i : ℕ) (js : List ℕ)
    (best : ℕ × ℕ × ℕ) (h : ∀ j, matchLen a b ahi bhi i j ≤ best.2.2) :
    js.foldl (fun bst j =>
      if bst.2.2 < matchLen a b ahi bhi i j then (i, j, matchLen a b ahi bhi i j)
      else bst) best = best := by
  induction js with
  | nil => rfl
  | cons j rest ih =>
    simp only [List.foldl_cons]
    rw [if_neg (not_lt.mpr (h j))]
    exact ih

/-- The outer fold of `flm` keeps its incumbent when no position in the
remaining rows can beat it (stated for an arbitrary inner column list). -/
lemma foldl_outer_keep (a b : List Char) (ahi bhi : ℕ) (js : List ℕ)
    (is : List ℕ) (best : ℕ × ℕ × ℕ)
    (h : ∀ i ∈ is, ∀ j, matchLen a b ahi bhi i j ≤ best.2.2) :
    is.foldl (fun bst i =>
      js.foldl (fun bst2 j =>
        if bst2.2.2 < matchLen a b ahi bhi i j then (i, j, matchLen a b ahi bhi i j)
        else bst2) bst) best = best := by
  induction is with
  | nil => rfl
  | cons i rest ih =>
    simp only [List.foldl_cons]
    rw [foldl_inner_keep a b ahi bhi i _ best (h i (by simp))]
    exact ih (fun i' hi' j => h i' (by simp [hi']) j)

/-- On a text against itself with equal nonempty windows inside the text,
`find_longest_match` returns the whole diagonal window: the diagonal block at
the window start has full length, every other block is no longer, and the
fold prefers the earliest. -/
lemma flm_diag (a : List Char) (alo ahi : ℕ) (hlt : alo < ahi)
    (hlen : ahi ≤ a.length) :
    flm a a alo ahi alo ahi = (alo, alo, ahi - alo) := by
  unfold flm
  obtain ⟨n, hn⟩ : ∃ n, ahi - alo = n + 1 := ⟨ahi - alo - 1, by omega⟩
  have hr : List.range' alo (ahi - alo) = alo :: List.range' (alo + 1) n := by
    rw [hn, List.range'_succ]
  rw [hr, List.foldl_cons, List.foldl_cons]
  rw [matchLen_diag a ahi alo hlen]
  rw [if_pos (show ((alo, alo, 0) : ℕ × ℕ × ℕ).2.2 < ahi - alo by dsimp only; omega)]
  rw [foldl_inner_keep a a ahi ahi alo _ (alo, alo, ahi - alo)
    (fun j => le_trans (matchLen_le_a a a ahi ahi alo j) (by dsimp only; omega))]
  refine foldl_outer_keep a a ahi ahi _ _ (alo, alo, ahi - alo) ?_
  intro i hi j
  have hib := List.mem_range'_1.mp hi
  refine le_trans (matchLen_le_a a a ahi ahi i j) ?_
  dsimp only
  omega

/-- The matched total fits in the `a`-window, whatever the fuel. -/
lemma matchSumGo_le_a (a b : List Char) :
    ∀ fuel alo ahi blo bhi, matchSumGo a b fuel alo ahi blo bhi ≤ ahi - alo := by
  intro fuel
  induction fuel with
  | zero =>
    intro alo ahi blo bhi
    exact Nat.zero_le _
  | succ f ih =>
    intro alo ahi blo bhi
    simp only [matchSumGo]
    split
    · exact Nat.zero_le _
    · rename_i hk
      have hb := flm_bounds a b alo ahi blo bhi hk
      have h1 := ih alo (flm a b alo ahi blo bhi).1 blo (flm a b alo ahi blo bhi).2.1
      have h2 := ih ((flm a b alo ahi blo bhi).1 + (flm a b alo ahi blo bhi).2.2) ahi
        ((flm a b alo ahi blo bhi).2.1 + (flm a b alo ahi blo bhi).2.2) bhi
      omega

/-- The matched total fits in the `b`-window, whatever the fuel. -/
lemma matchSumGo_le_b (a b : List Char) :
    ∀ fuel alo ahi blo bhi, matchSumGo a b fuel alo ahi blo bhi ≤ bhi - blo := by
  intro fuel
  induction fuel with
  | zero =>
    intro alo ahi blo bhi
    exact Nat.zero_le _
  | succ f ih =>
    intro alo ahi blo bhi
    simp only [matchSumGo]
    split
    · exact Nat.zero_le _
    · rename_i hk
      have hb := flm_bounds a b alo ahi blo bhi hk
      have h1 := ih alo (flm a b alo ahi blo bhi).1 blo (flm a b alo ahi blo bhi).2.1
      have h2 := ih ((flm a b alo ahi blo bhi).1 + (flm a b alo ahi blo bhi).2.2) ahi
        ((flm a b alo ahi blo bhi).2.1 + (flm a b alo ahi blo bhi).2.2) bhi
      omega

/-- An empty `a`-window yields the trivial block. -/
lemma flm_empty (a b : List Char) (alo ahi blo bhi : ℕ) (h : ahi ≤ alo) :
    flm a b alo ahi blo bhi = (alo, blo, 0) := by
  unfold flm
  rw [Nat.sub_eq_zero_of_le h]
  rfl

/-- On a text against itself the recursion matches the whole window, given
enough fuel (the window size suffices). -/
lemma matchSumGo_self (a : List Char) :
    ∀ fuel alo ahi, ahi - alo ≤ fuel → ahi ≤ a.length →
      matchSumGo a a fuel alo ahi alo ahi = ahi - alo := by
  intro fuel
  induction fuel with
  | zero =>
    intro alo ahi hf hlen
    simp only [matchSumGo]
    omega
  | succ f ih =>
    intro alo ahi hf hlen
    by_cases hlt : alo < ahi
    · have hd := flm_diag a alo ahi hlt hlen
      simp only [matchSumGo, hd]
      rw [if_neg (show ¬(ahi - alo = 0) by omega)]
      have hL := matchSumGo_le_a a a f alo alo alo alo
      have hR := matchSumGo_le_a a a f (alo + (ahi - alo)) ahi (alo + (ahi - alo)) ahi
      omega
    · have hle : ahi ≤ alo := by omega
      simp only [matchSumGo, flm_empty a a alo ahi alo ahi hle]
      simp only [ite_true, if_pos trivial]
      omega

/-- A text fully matches itself. -/
lemma matchTotal_self (a : List Char) : matchTotal a a = a.length := by
  unfold matchTotal
  rw [matchSumGo_self a a.length 0 a.length (by omega) (le_refl _)]
  omega

/-- `ratio` of a text with itself is 1. -/
lemma ratioQ_self (a : List Char) : ratioQ a a = 1 := by
  unfold ratioQ
  by_cases h : a.length + a.length = 0
  · rw [if_pos h]
  · rw [if_neg h]
    rw [matchTotal_self]
    have hn : (0 : ℚ) < (a.length : ℚ) := by
      have : 0 < a.length := by omega
      exact_mod_cast this
    field_simp
    ring

/-- `ratio` is nonnegative. -/
lemma ratioQ_nonneg (a b : List Char) : 0 ≤ ratioQ a b := by
  unfold ratioQ
  split
  · norm_num
  · rename_i h
    have h1 : (0 : ℚ) ≤ (matchTotal a b : ℚ) := by positivity
    have h2 : (0 : ℚ) < (a.length : ℚ) + (b.length : ℚ) := by
      have : 0 < a.length + b.length := by omega
      push_cast
      exact_mod_cast this
    positivity

/-- `ratio` is at most 1: the matched total fits in both sequences. -/
lemma ratioQ_le_one (a b : List Char) : ratioQ a b ≤ 1 := by
  unfold ratioQ
  split
  · norm_num
  · rename_i h
    have ha : matchTotal a b ≤ a.length := by
      have := matchSumGo_le_a a b a.length 0 a.length 0 b.length
      simpa [matchTotal] using this
    have hb : matchTotal a b ≤ b.length := by
      have := matchSumGo_le_b a b a.length 0 a.length 0 b.length
      simpa [matchTotal] using this
    have h2 : (0 : ℚ) < (a.length : ℚ) + (b.length : ℚ) := by
      have : 0 < a.length + b.length := by omega
      exact_mod_cast this
    rw [div_le_one h2]
    have : (matchTotal a b : ℚ) + (matchTotal a b : ℚ) ≤ (a.length : ℚ) + (b.length : ℚ) := by
      have := Nat.add_le_add ha hb
      exact_mod_cast this
    linarith

/-- Python string strict comparison is irreflexive. -/
lemma lexLt_irrefl (x : List Char) : lexLt x x = false := by
  induction x with
  | nil => rfl
  | cons c cs ih => simp [lexLt, ih]

/-- Python string strict comparison is transitive. -/
lemma lexLt_trans :
    ∀ x y z : List Char, lexLt x y = true → lexLt y z = true → lexLt x z = true := by
  intro x
  induction x with
  | nil =>
    intro y z hxy hyz
    cases y with
    | nil => exact hyz
    | cons d ds =>
      cases z with
      | nil => simp [lexLt] at hyz
      | cons e es => rfl
  | cons c cs ih =>
    intro y z hxy hyz
    cases y with
    | nil => simp [lexLt] at hxy
    | cons d ds =>
      cases z with
      | nil => simp [lexLt] at hyz
      | cons e es =>
        simp only [lexLt] at hxy hyz ⊢
        by_cases hcd : c < d
        · by_cases hde : d < e
          · rw [if_pos (lt_trans hcd hde)]
          · simp only [if_neg hde] at hyz
            by_cases hde2 : d = e
            · rw [if_pos (hde2 ▸ hcd)]
            · simp [if_neg hde2] at hyz
        · simp only [if_neg hcd] at hxy
          by_cases hcd2 : c = d
          · simp only [if_pos hcd2] at hxy
            by_cases hde : d < e
            · rw [if_pos (hcd2 ▸ hde)]
            · simp only [if_neg hde] at hyz
              by_cases hde2 : d = e
              · rw [if_neg (hcd2 ▸ hde ∘ (hde2 ▸ ·)), if_pos (hcd2.trans hde2)]
                simp only [if_pos hde2] at hyz
                exact ih ds es hxy hyz
              · simp [if_neg hde2] at hyz
          · simp [if_neg hcd2] at hxy

/-- Python string comparison is total: two mutually non-smaller strings are
equal. -/
lemma lexLt_total :
    ∀ x y : List Char, lexLt x y = false → lexLt y x = false → x = y := by
  intro x
  induction x with
  | nil =>
    intro y hxy _
    cases y with
    | nil => rfl
    | cons d ds => simp [lexLt] at hxy
  | cons c cs ih =>
    intro y hxy hyx
    cases y with
    | nil => simp [lexLt] at hyx
    | cons d ds =>
      simp only [lexLt] at hxy hyx
      by_cases hcd : c < d
      · simp [if_pos hcd] at hxy
      · by_cases hdc : d < c
        · simp [if_pos hdc] at hyx
        · have hcd2 : c = d := le_antisymm (not_lt.mp hdc) (not_lt.mp hcd)
          simp only [if_neg hcd, if_pos hcd2] at hxy
          simp only [if_neg hdc, if_pos hcd2.symm] at hyx
          rw [hcd2, ih ds hxy hyx]

/-- Python pair comparison is irreflexive. -/
lemma pairGT_irrefl (b : ℚ × List Char) : pairGT b b = false := by
  simp [pairGT, lexLt_irrefl]

/-- Python pair comparison is transitive. -/
lemma pairGT_trans (c b a : ℚ × List Char) (h1 : pairGT c b = true)
    (h2 : pairGT b a = true) : pairGT c a = true := by
  simp only [pairGT] at h1 h2 ⊢
  by_cases hbc : b.1 < c.1
  · by_cases hab : a.1 < b.1
    · rw [if_pos (lt_trans hab hbc)]
    · simp only [if_neg hab] at h2
      by_cases hab2 : b.1 = a.1
      · rw [if_pos (hab2 ▸ hbc)]
      · simp [if_neg hab2] at h2
  · simp only [if_neg hbc] at h1
    by_cases hbc2 : c.1 = b.1
    · simp only [if_pos hbc2] at h1
      by_cases hab : a.1 < b.1
      · rw [if_pos (hbc2 ▸ hab)]
      · simp only [if_neg hab] at h2
        by_cases hab2 : b.1 = a.1
        · simp only [if_pos hab2] at h2
          rw [if_neg (show ¬ a.1 < c.1 by rw [hbc2, hab2]; exact lt_irrefl _),
            if_pos (hbc2.trans hab2)]
          exact lexLt_trans a.2 b.2 c.2 h2 h1
        · simp [if_neg hab2] at h2
    · simp [if_neg hbc2] at h1

/-- Python pair comparison is total: two mutually non-greater pairs are
equal. -/
lemma pairGT_total (c b : ℚ × List Char) (h1 : pairGT c b = false)
    (h2 : pairGT b c = false) : c = b := by
  simp only [pairGT] at h1 h2
  by_cases hbc : b.1 < c.1
  · simp [if_pos hbc] at h1
  · by_cases hcb : c.1 < b.1
    · simp [if_pos hcb] at h2
    · have he : c.1 = b.1 := le_antisymm (not_lt.mp hbc) (not_lt.mp hcb)
      simp only [if_neg hbc, if_pos he] at h1
      simp only [if_neg hcb, if_pos he.symm] at h2
      have := lexLt_total c.2 b.2 h2 h1
      exact Prod.ext he this

/-- Folding `maxStep` from an incumbent always yields an element. -/
lemma maxStep_foldl_isSome (l : List (ℚ × List Char)) :
    ∀ b, ∃ r, l.foldl maxStep (some b) = some r := by
  induction l with
  | nil =>
    intro b
    exact ⟨b, rfl⟩
  | cons c rest ih =>
    intro b
    simp only [List.foldl_cons, maxStep]
    split
    · exact ih c
    · exact ih b

/-- The element Python's `max` keeps, starting from an incumbent: it is the
incumbent or a list element, and neither the incumbent nor any list element
strictly beats it. -/
lemma maxStep_foldl_spec (l : List (ℚ × List Char)) :
    ∀ b r, l.foldl maxStep (some b) = some r →
      (r = b ∨ r ∈ l) ∧ pairGT b r = false ∧ ∀ c ∈ l, pairGT c r = false := by
  induction l with
  | nil =>
    intro b r h
    simp only [List.foldl_nil, Option.some.injEq] at h
    subst h
    exact ⟨Or.inl rfl, pairGT_irrefl _, by simp⟩
  | cons c rest ih =>
    intro b r h
    simp only [List.foldl_cons, maxStep] at h
    by_cases hcb : pairGT c b = true
    · rw [if_pos hcb] at h
      obtain ⟨hmem, hcr, hall⟩ := ih c r h
      refine ⟨?_, ?_, ?_⟩
      · rcases hmem with rfl | hm
        · exact Or.inr (by simp)
        · exact Or.inr (by simp [hm])
      · rcases Bool.eq_false_or_eq_true (pairGT b r) with ht | hf
        · exact absurd (pairGT_trans c b r hcb ht) (by simp [hcr])
        · exact hf
      · intro x hx
        rcases List.mem_cons.mp hx with rfl | hxm
        · exact hcr
        · exact hall x hxm
    · rw [if_neg hcb] at h
      obtain ⟨hmem, hbr, hall⟩ := ih b r h
      have hcb2 : pairGT c b = false := by simpa using hcb
      refine ⟨?_, hbr, ?_⟩
      · rcases hmem with rfl | hm
        · exact Or.inl rfl
        · exact Or.inr (by simp [hm])
      · intro x hx
        rcases List.mem_cons.mp hx with rfl | hxm
        · rcases Bool.eq_false_or_eq_true (pairGT x r) with ht | hf
          · rcases Bool.eq_false_or_eq_true (pairGT b x) with hbx | hbx
            · exact absurd (pairGT_trans b x r hbx ht) (by simp [hbr])
            · have hxb : x = b := pairGT_total x b hcb2 hbx
              rw [hxb] at ht
              exact absurd ht (by simp [hbr])
          · exact hf
        · exact hall x hxm

/-- Python's `max` over a nonempty list returns a maximum element; over an
empty list there is nothing. -/
lemma maxArg_none_iff (l : List (ℚ × List Char)) : maxArg l = none ↔ l = [] := by
  constructor
  · intro h
    cases l with
    | nil => rfl
    | cons c rest =>
      simp only [maxArg, List.foldl_cons, maxStep] at h
      obtain ⟨r, hr⟩ := maxStep_foldl_isSome rest c
      rw [hr] at h
      exact absurd h (by simp)
  · intro h
    rw [h]
    rfl

/-- The element `maxArg` returns belongs to the list and is beaten by no list
element. -/
lemma maxArg_some_spec (l : List (ℚ × List Char)) (r : ℚ × List Char)
    (h : maxArg l = some r) : r ∈ l ∧ ∀ c ∈ l, pairGT c r = false := by
  cases l with
  | nil => exact absurd h (by simp [maxArg])
  | cons c rest =>
    simp only [maxArg, List.foldl_cons, maxStep] at h
    obtain ⟨hmem, hcr, hall⟩ := maxStep_foldl_spec rest c r h
    refine ⟨?_, ?_⟩
    · rcases hmem with rfl | hm
      · exact by simp
      · exact by simp [hm]
    · intro x hx
      rcases List.mem_cons.mp hx with rfl | hxm
      · exact hcr
      · exact hall x hxm

/-- Membership in the scored candidate list: exactly the lowered questions
whose ratio reaches the cutoff, paired with that ratio. -/
lemma mem_candidatePairs (u : List Char) (qs : List (List Char))
    (p : ℚ × List Char) :
    p ∈ candidatePairs u qs ↔
      ∃ q ∈ qs, p.2 = pyLower q ∧ p.1 = ratioQ (pyLower q) (pyLower u) ∧
        13/20 ≤ ratioQ (pyLower q) (pyLower u) := by
  unfold candidatePairs
  rw [List.mem_filterMap]
  constructor
  · rintro ⟨x, hx, hfx⟩
    rcases List.mem_map.mp hx with ⟨q, hq, rfl⟩
    by_cases hc : 13/20 ≤ ratioQ (pyLower q) (pyLower u)
    · rw [if_pos hc] at hfx
      rcases hfx
      exact ⟨q, hq, rfl, rfl, hc⟩
    · rw [if_neg hc] at hfx
      cases hfx
  · rintro ⟨q, hq, h2, h1, hc⟩
    refine ⟨pyLower q, List.mem_map_of_mem _ hq, ?_⟩
    rw [if_pos hc]
    rcases p with ⟨pr, px⟩
    simp only at h1 h2
    rw [h1, h2]

/-- Unfolding of a failed Python tuple comparison. -/
lemma pairGT_false_iff (c b : ℚ × List Char) :
    pairGT c b = false ↔ (c.1 ≤ b.1 ∧ (c.1 = b.1 → lexLt b.2 c.2 = false)) := by
  unfold pairGT
  by_cases h1 : b.1 < c.1
  · simp only [if_pos h1]
    simp [not_le.mpr h1]
  · by_cases h2 : c.1 = b.1
    · simp [if_neg h1, if_pos h2, h2]
    · simp [if_neg h1, if_neg h2, not_lt.mp h1, h2]

/-- Claim C2 (amended): `find_best_match` lowercases the user text and every
candidate, scores each candidate with the sequence-similarity ratio (which is
always in [0,1]), returns `none` exactly when no candidate reaches the 0.65
cutoff, and otherwise returns a highest-scoring lowered candidate; among
candidates tied at the maximum score the returned one is the
lexicographically greatest (not the first in input order); the function is
total. -/
theorem find_best_match_spec (user : List Char) (qs : List (List Char)) :
    (find_best_match user qs = none ↔
      ∀ q ∈ qs, ratioQ (pyLower q) (pyLower user) < 13/20) ∧
    (∀ m, find_best_match user qs = some m →
      ∃ q ∈ qs, m = pyLower q ∧
        13/20 ≤ ratioQ (pyLower q) (pyLower user) ∧
        (∀ q' ∈ qs,
          ratioQ (pyLower q') (pyLower user) ≤ ratioQ (pyLower q) (pyLower user)) ∧
        (∀ q' ∈ qs,
          ratioQ (pyLower q') (pyLower user) = ratioQ (pyLower q) (pyLower user) →
          lexLt m (pyLower q') = false)) ∧
    (∀ q ∈ qs, 0 ≤ ratioQ (pyLower q) (pyLower user) ∧
      ratioQ (pyLower q) (pyLower user) ≤ 1) := by
  refine ⟨?_, ?_, ?_⟩
  · unfold find_best_match
    rcases hmax : maxArg (candidatePairs user qs) with _ | pr
    · simp only [Option.map_none', true_iff]
      have hnil := (maxArg_none_iff _).mp hmax
      intro q hq
      by_cases hc : 13/20 ≤ ratioQ (pyLower q) (pyLower user)
      · exfalso
        have : (ratioQ (pyLower q) (pyLower user), pyLower q) ∈
            candidatePairs user qs := by
          rw [mem_candidatePairs]
          exact ⟨q, hq, rfl, rfl, hc⟩
        rw [hnil] at this
        simp at this
      · exact not_le.mp hc
    · simp only [Option.map_some']
      constructor
      · intro h
        cases h
      · intro hall
        obtain ⟨hmem, _⟩ := maxArg_some_spec _ _ hmax
        rw [mem_candidatePairs] at hmem
        obtain ⟨q, hq, _, _, hc⟩ := hmem
        exact absurd hc (not_le.mpr (hall q hq))
  · intro m hm
    unfold find_best_match at hm
    rcases hmax : maxArg (candidatePairs user qs) with _ | pr
    · rw [hmax] at hm
      cases hm
    · rw [hmax] at hm
      simp only [Option.map_some', Option.some.injEq] at hm
      obtain ⟨hmem, hbest⟩ := maxArg_some_spec _ _ hmax
      rw [mem_candidatePairs] at hmem
      obtain ⟨q, hq, hx, hr, hc⟩ := hmem
      refine ⟨q, hq, by rw [← hm, hx], hc, ?_, ?_⟩
      · intro q' hq'
        by_cases hc' : 13/20 ≤ ratioQ (pyLower q') (pyLower user)
        · have hmem' : (ratioQ (pyLower q') (pyLower user), pyLower q') ∈
              candidatePairs user qs := by
            rw [mem_candidatePairs]
            exact ⟨q', hq', rfl, rfl, hc'⟩
          have := (pairGT_false_iff _ _).mp (hbest _ hmem')
          rw [← hr]
          exact this.1
        · rw [← hr]
          exact le_trans (le_of_lt (not_le.mp hc')) (by rw [hr]; exact hc)
      · intro q' hq' heq
        have hc' : 13/20 ≤ ratioQ (pyLower q') (pyLower user) := by
          rw [heq]
          exact hc
        have hmem' : (ratioQ (pyLower q') (pyLower user), pyLower q') ∈
            candidatePairs user qs := by
          rw [mem_candidatePairs]
          exact ⟨q', hq', rfl, rfl, hc'⟩
        have hfalse := (pairGT_false_iff _ _).mp (hbest _ hmem')
        have := hfalse.2 (by rw [← hr] at heq; exact heq)
        rw [← hm, hx]
        rw [hx] at this
        exact this
  · intro q hq
    exact ⟨ratioQ_nonneg _ _, ratioQ_le_one _ _⟩

/-- Claim C2 counterexample: "abd" and "abe" both score 2/3 >= 0.65 against
"abc", a tie at the maximum, yet the match returned is "abe" — the
lexicographically greatest tied candidate — not "abd", the first in input
order. -/
theorem find_best_match_tie_counterexample :
    ratioQ (pyLower "abd".data) (pyLower "abc".data) =
      ratioQ (pyLower "abe".data) (pyLower "abc".data) ∧
    13/20 ≤ ratioQ (pyLower "abd".data) (pyLower "abc".data) ∧
    find_best_match "abc".data ["abd".data, "abe".data] = some ("abe".data) ∧
    find_best_match "abc".data ["abd".data, "abe".data] ≠ some ("abd".data) := by
  refine ⟨by decide, by decide, by decide, by decide⟩

set_option maxRecDepth 4000 in
/-- Claim C2 witness: on a single identical candidate the match is that
candidate, already lowercase, with ratio at the cutoff or above. -/
theorem find_best_match_spec_witness :
    ∃ q ∈ ["hello".data], "hello".data = pyLower q ∧
      13/20 ≤ ratioQ (pyLower q) (pyLower "hello".data) := by
  obtain ⟨q, hq, hm, hc, _, _⟩ :=
    (find_best_match_spec "hello".data ["hello".data]).2.1 "hello".data (by decide)
  exact ⟨q, hq, hm, hc⟩

/-- Claim C10: a question text present in the knowledge base always fuzzy
matches (its own lowered text scores ratio 1, above the 0.65 cutoff), the
returned match is the lowered text of some listed question, and looking that
match up case-insensitively yields the answer of the first entry whose
question matches it — the successful match is never paired with a failed
lookup. -/
theorem match_lookup_round_trip (kb : KnowledgeBase) (q : List Char)
    (hq : q ∈ kb.questions.map (fun e => e.question)) :
    ∃ m, find_best_match q (kb.questions.map (fun e => e.question)) = some m ∧
      (∃ q' ∈ kb.questions.map (fun e => e.question), m = pyLower q') ∧
      (get_answer_for_question m kb).isSome ∧
      get_answer_for_question m kb =
        (kb.questions.find? (fun e => pyLower e.question == pyLower m)).map
          (fun e => e.answer) := by
  have hself : (ratioQ (pyLower q) (pyLower q), pyLower q) ∈
      candidatePairs q (kb.questions.map (fun e => e.question)) := by
    rw [mem_candidatePairs]
    refine ⟨q, hq, rfl, rfl, ?_⟩
    rw [ratioQ_self]
    norm_num
  rcases hmax : maxArg (candidatePairs q (kb.questions.map (fun e => e.question)))
      with _ | pr
  · exfalso
    have := (maxArg_none_iff _).mp hmax
    rw [this] at hself
    simp at hself
  · obtain ⟨hmem, _⟩ := maxArg_some_spec _ _ hmax
    rw [mem_candidatePairs] at hmem
    obtain ⟨q', hq', hx, _, _⟩ := hmem
    refine ⟨pr.2, ?_, ⟨q', hq', hx⟩, ?_, rfl⟩
    · unfold find_best_match
      rw [hmax]
      rfl
    · rcases List.mem_map.mp hq' with ⟨e, he, hee⟩
      unfold get_answer_for_question
      rw [Option.isSome_map']
      rw [List.find?_isSome]
      refine ⟨e, he, ?_⟩
      have hml : pyLower pr.2 = pr.2 := by
        rw [hx, pyLower_pyLower]
      rw [beq_iff_eq, hml, hx, hee]

/-- Claim C10 witness: the one-entry base answers its own question. -/
theorem match_lookup_round_trip_witness :
    ∃ m, find_best_match "Hi".data
        ((KnowledgeBase.mk [KBEntry.mk "Hi".data "Hello!".data]).questions.map
          (fun e => e.question)) = some m ∧
      (get_answer_for_question m
        (KnowledgeBase.mk [KBEntry.mk "Hi".data "Hello!".data])).isSome := by
  obtain ⟨m, hm, _, hsome, _⟩ := match_lookup_round_trip
    (KnowledgeBase.mk [KBEntry.mk "Hi".data "Hello!".data]) "Hi".data (by decide)
  exact ⟨m, hm, hsome⟩
